import Mathlib

/-!
Verification of the SALC (symmetry adapted linear combination) engine of the
`group_theory` package, `salcs.py`.

The embedding models Python numbers as an exact tagged type `PyNum`
(`int` carrying `ℤ`, `float` carrying `ℚ`), fallible Python code as
`Except PyErr`, and the heterogeneous nested result values of the
symmetry-function engine as the rose tree `SalcVal`.  SymPy linear
combinations of ligand labels are modelled as coefficient vectors `LC n`.
The character-table data module (`tables.py`) is not part of the sources
under verification; the entries needed here are modelled from the spec as
marked below.
-/

/-! ## Python numbers -/

/-- A Python number: an exact `int` or a `float` (modelled as an exact
rational; every value manipulated here is exactly representable). -/
inductive PyNum where
  | int : ℤ → PyNum
  | float : ℚ → PyNum
deriving DecidableEq

/-- Numeric value of a Python number. -/
def PyNum.toQ : PyNum → ℚ
  | .int n => (n : ℚ)
  | .float q => q

/-- `isinstance(v, int)`. -/
def PyNum.isInt : PyNum → Bool
  | .int _ => true
  | .float _ => false

/-- Python `+`: `int + int` is an `int`, any `float` operand makes the result
a `float`. -/
def PyNum.add : PyNum → PyNum → PyNum
  | .int a, .int b => .int (a + b)
  | a, b => .float (a.toQ + b.toQ)

/-- Python binary `-`. -/
def PyNum.sub : PyNum → PyNum → PyNum
  | .int a, .int b => .int (a - b)
  | a, b => .float (a.toQ - b.toQ)

/-- Python `*`. -/
def PyNum.mul : PyNum → PyNum → PyNum
  | .int a, .int b => .int (a * b)
  | a, b => .float (a.toQ * b.toQ)

/-- Python `**` with a literal natural exponent (the only exponents occurring
in character-table symmetry functions). -/
def PyNum.pow : PyNum → ℕ → PyNum
  | .int a, k => .int (a ^ k)
  | .float q, k => .float (q ^ k)

/-- Truthiness of a number, as used by `np.any`. -/
def PyNum.isZero (v : PyNum) : Bool := v.toQ = 0

/-- Floor of a rational, computed from the normalized numerator and
denominator (kernel-reducible, unlike `Int.floor`). -/
def qfloor (q : ℚ) : ℤ := q.num / q.den

theorem qfloor_eq_floor (q : ℚ) : qfloor q = ⌊q⌋ := Rat.floor_def.symm

/-- Round to the nearest integer, ties to even: the semantics of Python 3
`round`. -/
def roundHalfEven (q : ℚ) : ℤ :=
  if q - qfloor q < 1/2 then qfloor q
  else if 1/2 < q - qfloor q then qfloor q + 1
  else if qfloor q % 2 = 0 then qfloor q else qfloor q + 1

/-- Python `round(q, 2)` on a float value. -/
def round2q (q : ℚ) : ℚ := (roundHalfEven (q * 100) : ℚ) / 100

/-- Python `round(v, 2)`: rounding an `int` returns it unchanged (and still
an `int`); a `float` is rounded to 2 decimal places. -/
def PyNum.round2 : PyNum → PyNum
  | .int n => .int n
  | .float q => .float (round2q q)

/-! ## Python exceptions -/

/-- The exceptions the embedded code can raise. -/
inductive PyErr where
  /-- the explicit `raise Exception("Invalide mode input: ...")` -/
  | invalidMode
  /-- dictionary lookup miss -/
  | keyError
  /-- sequence index out of range -/
  | indexErr
  /-- unsupported operand comparison (e.g. `max` over a list holding lists) -/
  | typeErr
  /-- `max` of an empty sequence -/
  | valueErr
  /-- division by zero -/
  | zeroDiv
  /-- numpy shape-mismatch error on elementwise multiplication -/
  | broadcastErr
deriving DecidableEq

deriving instance DecidableEq for Except

/-! ## Lowercasing of group names (Python `str.lower` on ASCII names) -/

/-- ASCII lowercasing of one character, as Python `str.lower` acts on the
point-group names used here. -/
def pyLowerChar (c : Char) : Char :=
  if 'A' ≤ c && c ≤ 'Z' then Char.ofNat (c.toNat + 32) else c

/-- Python `group.lower()`. -/
def pyLower (s : String) : String := ⟨s.data.map pyLowerChar⟩

/-! ## Character-table data (the external `tables.py` module) -/

/-- Modelled from the spec: the Character-Table Data module (`tables.py`) is
not under the verified sources; per the spec it is a read-only mapping keyed
by lowercase point-group name giving the per-class operation multiplicities
of each group.  The values are the standard class multiplicities, consistent
with the `c3v` docstring example in `_expand_irreducible` and with the
operation counts of the test projections. -/
def table_coeff : String → Option (List ℕ)
  | "c3v" => some [1, 2, 3]
  | "d3h" => some [1, 2, 3, 1, 2, 3]
  | "d4h" => some [1, 2, 1, 2, 2, 1, 2, 1, 2, 2]
  | _ => none

/-- Modelled from the spec: the condensed irreducible-representation
character rows of `tables.py` (one row per irreducible representation, one
integer character per operation class, in the canonical table order).  The
values are the standard character tables, consistent with the expected
projection outputs recorded in the repository tests. -/
def tables : String → Option (List (List ℤ))
  | "c3v" => some [[1, 1, 1], [1, 1, -1], [2, -1, 0]]
  | "d3h" => some [[1, 1, 1, 1, 1, 1], [1, 1, -1, 1, 1, -1], [2, -1, 0, 2, -1, 0],
      [1, 1, 1, -1, -1, -1], [1, 1, -1, -1, -1, 1], [2, -1, 0, -2, 1, 0]]
  | "d4h" => some [[1, 1, 1, 1, 1, 1, 1, 1, 1, 1], [1, 1, 1, -1, -1, 1, 1, 1, -1, -1],
      [1, -1, 1, 1, -1, 1, -1, 1, 1, -1], [1, -1, 1, -1, 1, 1, -1, 1, -1, 1],
      [2, 0, -2, 0, 0, 2, 0, -2, 0, 0], [1, 1, 1, 1, 1, -1, -1, -1, -1, -1],
      [1, 1, 1, -1, -1, -1, -1, -1, 1, 1], [1, -1, 1, 1, -1, -1, 1, -1, -1, 1],
      [1, -1, 1, -1, 1, -1, 1, -1, 1, -1], [2, 0, -2, 0, 0, -2, 0, 2, 0, 0]]
  | _ => none

/-- A symmetry basis function: a closed-form polynomial expression in the
coordinate variables x, y, z (the shapes occurring in character tables). -/
inductive Expr where
  | X : Expr
  | Y : Expr
  | Z : Expr
  | add : Expr → Expr → Expr
  | sub : Expr → Expr → Expr
  | mul : Expr → Expr → Expr
  | pow : Expr → ℕ → Expr
deriving DecidableEq

/-- Evaluation of a symmetry function at a ligand position, with Python
numeric semantics (`eval(func, {x: ..., y: ..., z: ...})`). -/
def Expr.eval : Expr → PyNum → PyNum → PyNum → PyNum
  | .X, x, _, _ => x
  | .Y, _, y, _ => y
  | .Z, _, _, z => z
  | .add a b, x, y, z => (a.eval x y z).add (b.eval x y z)
  | .sub a b, x, y, z => (a.eval x y z).sub (b.eval x y z)
  | .mul a b, x, y, z => (a.eval x y z).mul (b.eval x y z)
  | .pow a k, x, y, z => (a.eval x y z).pow k

/-- One per-irreducible-representation entry of the symmetry-function table:
the literal constant 0 or 1, or a list of one or more basis functions. -/
inductive BasisEntry where
  | const : ℤ → BasisEntry
  | funcs : List Expr → BasisEntry

/-- Modelled from the spec: the symmetry-basis-function table of `tables.py`
(not under the verified sources).  Per the spec it is keyed by lowercase
point-group name; each group maps to one entry per irreducible
representation, in table order, each entry being the constant 0, the
constant 1, or one-or-more formulas in x, y, z.  The `d4h` entry holds the
standard basis functions, consistent with the expected square-planar output
in the repository tests. -/
def symmetry_func_dict : String → Option (List BasisEntry)
  | "d4h" => some [
      .funcs [.add (.pow .X 2) (.pow .Y 2), .pow .Z 2],
      .const 0,
      .funcs [.sub (.pow .X 2) (.pow .Y 2)],
      .funcs [.mul .X .Y],
      .funcs [.mul .X .Z, .mul .Y .Z],
      .const 0,
      .funcs [.Z],
      .const 0,
      .const 0,
      .funcs [.X, .Y]]
  | _ => none

/-! ## Projection-operator method -/

/-- `_expand_irreducible(irred, group)`: repeat the i-th condensed character
`table_coeff[group.lower()][i]` times, concatenating in class order.  The
loop indexes `table_coeff[...][i]` for every `i < len(irred)`, so a condensed
row longer than the multiplicity table raises `IndexError`. -/
def _expand_irreducible (irred : List ℤ) (group : String) : Except PyErr (List ℤ) :=
  match table_coeff (pyLower group) with
  | none => .error .keyError
  | some coeff =>
    if irred.length ≤ coeff.length then
      .ok ((List.range irred.length).foldl
        (fun acc i => acc ++ List.replicate (coeff.getD i 0) (irred.getD i 0)) [])
    else .error .indexErr

/-- A SymPy linear combination of `n` ligand labels, as its coefficient
vector (SymPy keeps such sums in canonical form, so the all-zero vector is
the literal `0`). -/
def LC (n : ℕ) : Type := Fin n → ℚ

/-- The indices `0, ..., n-1`, built structurally (kernel-friendly, unlike
`List.finRange`). -/
def finList : (n : ℕ) → List (Fin n)
  | 0 => []
  | n + 1 => ⟨0, Nat.succ_pos n⟩ :: (finList n).map Fin.succ

theorem mem_finList : ∀ {n : ℕ} (i : Fin n), i ∈ finList n := by
  intro n
  induction n with
  | zero => exact fun i => absurd i.2 (Nat.not_lt_zero _)
  | succ n ih =>
    intro i
    cases i using Fin.cases with
    | zero => exact List.mem_cons_self _ _
    | succ j => exact List.mem_cons_of_mem _ (List.mem_map_of_mem Fin.succ (ih j))

theorem lc_map_finList_inj {n : ℕ} (f g : LC n) :
    (finList n).map f = (finList n).map g ↔ f = g := by
  constructor
  · intro h
    funext i
    exact List.map_eq_map_iff.mp h i (mem_finList i)
  · intro h
    rw [h]

instance {n : ℕ} : DecidableEq (LC n) := fun f g =>
  decidable_of_iff _ (lc_map_finList_inj f g)

/-- The linear combination with the given coefficient list (coefficient 0
beyond the end of the list). -/
def lcOf {n : ℕ} (l : List ℚ) : LC n := fun j => l.getD j.val 0

/-- The zero linear combination: SymPy literal `0`. -/
def lcZero (n : ℕ) : LC n := fun _ => 0

/-- Sum of two linear combinations. -/
def lcAdd {n : ℕ} (u v : LC n) : LC n := fun j => u j + v j

/-- An integer character times a linear combination. -/
def lcScale {n : ℕ} (c : ℤ) (u : LC n) : LC n := fun j => (c : ℚ) * u j

/-- `np.sum` over a 1-d object array of SymPy expressions. -/
def npSum {n : ℕ} (l : List (LC n)) : LC n := l.foldl lcAdd (lcZero n)

/-- Elementwise `list * np.array(...)` with numpy broadcasting: equal
lengths multiply elementwise, a length-1 operand broadcasts, anything else
raises a shape-mismatch error. -/
def npMulBroadcast {n : ℕ} (xs : List ℤ) (ys : List (LC n)) : Except PyErr (List (LC n)) :=
  if xs.length = ys.length then .ok (List.zipWith lcScale xs ys)
  else
    match xs, ys with
    | [c], ys => .ok (ys.map (lcScale c))
    | xs, [u] => .ok (xs.map (fun c => lcScale c u))
    | _, _ => .error .broadcastErr

/-- The loop body of `calc_salcs_projection`: for each condensed row, expand
it, multiply elementwise with the projection results and sum. -/
def projLoop {n : ℕ} (p : List (LC n)) (group : String) :
    List (List ℤ) → Except PyErr (List (LC n))
  | [] => .ok []
  | irred :: rest =>
    match _expand_irreducible irred (pyLower group) with
    | .error e => .error e
    | .ok expanded =>
      match npMulBroadcast expanded p with
      | .error e => .error e
      | .ok product =>
        match projLoop p group rest with
        | .error e => .error e
        | .ok rest' => .ok (npSum product :: rest')

/-- `calc_salcs_projection(projection, group)`. -/
def calc_salcs_projection {n : ℕ} (projection : List (LC n)) (group : String) :
    Except PyErr (List (LC n)) :=
  match tables (pyLower group) with
  | none => .error .keyError
  | some rows => projLoop projection group rows

/-! ## Symmetry-function method: result values -/

/-- One value of the heterogeneous nested results the symmetry-function
engine manipulates: a Python number or a (possibly nested) list. -/
inductive SalcVal where
  | num : PyNum → SalcVal
  | seq : List SalcVal → SalcVal

mutual
def SalcVal.beq : SalcVal → SalcVal → Bool
  | .num a, .num b => a == b
  | .seq l, .seq m => SalcVal.beqL l m
  | _, _ => false
def SalcVal.beqL : List SalcVal → List SalcVal → Bool
  | [], [] => true
  | a :: l, b :: m => SalcVal.beq a b && SalcVal.beqL l m
  | _, _ => false
end

mutual
theorem SalcVal.beq_iff : ∀ a b : SalcVal, SalcVal.beq a b = true ↔ a = b
  | .num a, .num b => by simp [SalcVal.beq, beq_iff_eq]
  | .num _, .seq _ => by simp [SalcVal.beq]
  | .seq _, .num _ => by simp [SalcVal.beq]
  | .seq l, .seq m => by
    rw [SalcVal.beq, SalcVal.beqL_iff l m]
    simp
theorem SalcVal.beqL_iff : ∀ l m : List SalcVal, SalcVal.beqL l m = true ↔ l = m
  | [], [] => by simp [SalcVal.beqL]
  | [], _ :: _ => by simp [SalcVal.beqL]
  | _ :: _, [] => by simp [SalcVal.beqL]
  | a :: l, b :: m => by
    rw [SalcVal.beqL, Bool.and_eq_true, SalcVal.beq_iff a b, SalcVal.beqL_iff l m]
    simp
end

instance : DecidableEq SalcVal := fun a b => decidable_of_iff _ (SalcVal.beq_iff a b)

/-- Whether a value is a Python list. -/
def SalcVal.isSeq : SalcVal → Bool
  | .seq _ => true
  | .num _ => false

/-- Numeric value of a leaf (unused on lists; `maxCtx` rejects those first). -/
def SalcVal.toQ : SalcVal → ℚ
  | .num v => v.toQ
  | .seq _ => 0

/-! ## Symmetry-function method: the engine -/

/-- Python `max(salcs)`: comparing a list with a number raises `TypeError`,
`max` of an empty sequence raises `ValueError`, otherwise the numeric
maximum is returned. -/
def maxCtx (ctx : List SalcVal) : Except PyErr ℚ :=
  if ctx.any SalcVal.isSeq then .error .typeErr
  else
    match (ctx.map SalcVal.toQ).max? with
    | some m => .ok m
    | none => .error .valueErr

mutual
/-- One step of `_normalize_salcs` on one element `value` of the list `ctx`
being normalized: nested lists recurse, `int` values pass through unchanged,
any other value is divided by `max(ctx)` and rounded to 2 decimal places. -/
def normV (ctx : List SalcVal) : SalcVal → Except PyErr SalcVal
  | .num v =>
    if v.isInt then .ok (.num v)
    else
      match maxCtx ctx with
      | .error e => .error e
      | .ok m =>
        if m = 0 then .error .zeroDiv
        else .ok (.num (PyNum.round2 (.float (v.toQ / m))))
  | .seq l =>
    match normL l l with
    | .error e => .error e
    | .ok l' => .ok (.seq l')

/-- The `for value in salcs` loop of `_normalize_salcs`, with `ctx` the list
whose maximum is the divisor. -/
def normL (ctx : List SalcVal) : List SalcVal → Except PyErr (List SalcVal)
  | [] => .ok []
  | v :: rest =>
    match normV ctx v with
    | .error e => .error e
    | .ok v' =>
      match normL ctx rest with
      | .error e => .error e
      | .ok rest' => .ok (v' :: rest')
end

/-- `_normalize_salcs(salcs)`. -/
def _normalize_salcs (salcs : List SalcVal) : Except PyErr (List SalcVal) :=
  normL salcs salcs

/-- `x, y, z = unit_vector[0], unit_vector[1], unit_vector[2]`: indexing a
too-short vector raises `IndexError`. -/
def unpack3 : List PyNum → Except PyErr (PyNum × PyNum × PyNum)
  | x :: y :: z :: _ => .ok (x, y, z)
  | _ => .error .indexErr

/-- The inner loop of `_eval_sym_func`: evaluate one symmetry function at
every ligand position, rounding each value to 2 decimal places. -/
def ligandContribs (coords : List (List PyNum)) (f : Expr) : Except PyErr (List PyNum) :=
  match coords with
  | [] => .ok []
  | uv :: rest =>
    match unpack3 uv with
    | .error e => .error e
    | .ok (x, y, z) =>
      match ligandContribs rest f with
      | .error e => .error e
      | .ok rest' => .ok (PyNum.round2 (f.eval x y z) :: rest')

/-- The outer loop of `_eval_sym_func`: keep each function's value list only
if `np.any` of it is truthy (some value is nonzero). -/
def survivingLists (coords : List (List PyNum)) : List Expr → Except PyErr (List (List PyNum))
  | [] => .ok []
  | f :: rest =>
    match ligandContribs coords f with
    | .error e => .error e
    | .ok l =>
      match survivingLists coords rest with
      | .error e => .error e
      | .ok rest' => .ok (if l.any (fun v => !v.isZero) then l :: rest' else rest')

/-- `_eval_sym_func(coords, funcs)`: the literal `0` if no function survives,
the single value list if one survives, the nested list of lists otherwise. -/
def _eval_sym_func (coords : List (List PyNum)) (funcs : List Expr) : Except PyErr SalcVal :=
  match survivingLists coords funcs with
  | .error e => .error e
  | .ok [] => .ok (.num (.int 0))
  | .ok [s] => .ok (.seq (s.map SalcVal.num))
  | .ok salcs => .ok (.seq (salcs.map (fun s => .seq (s.map SalcVal.num))))

/-- `_angles_to_vectors(ligand_angles)`, parametric in the `math.cos` /
`math.sin` primitives composed with `radians` (their values on degree inputs
are irrational in general, so the embedding treats them as an arbitrary
fixed pair of functions); each angle pair yields a float `[x, y, z]`
vector.  Indexing a too-short pair raises `IndexError`. -/
def _angles_to_vectors (cosd sind : ℚ → ℚ) :
    List (List PyNum) → Except PyErr (List (List PyNum))
  | [] => .ok []
  | orbital :: rest =>
    match orbital with
    | phi :: theta :: _ =>
      match _angles_to_vectors cosd sind rest with
      | .error e => .error e
      | .ok rest' =>
        .ok ([.float (cosd phi.toQ * cosd theta.toQ),
              .float (sind phi.toQ * cosd theta.toQ),
              .float (sind theta.toQ)] :: rest')
    | _ => .error .indexErr

/-- The `for basis_func in symmetry_func_dict[group]` loop of
`calc_salcs_func`: the constants 0 and 1 pass through; iterating over any
other non-sequence entry would raise `TypeError`; formula entries are
evaluated by `_eval_sym_func`. -/
def buildLoop (vectors : List (List PyNum)) : List BasisEntry → Except PyErr (List SalcVal)
  | [] => .ok []
  | .const c :: rest =>
    if c = 0 ∨ c = 1 then
      match buildLoop vectors rest with
      | .error e => .error e
      | .ok rest' => .ok (.num (.int c) :: rest')
    else .error .typeErr
  | .funcs fs :: rest =>
    match _eval_sym_func vectors fs with
    | .error e => .error e
    | .ok v =>
      match buildLoop vectors rest with
      | .error e => .error e
      | .ok rest' => .ok (v :: rest')

/-- The un-normalized SALC list computed by `calc_salcs_func` before its
final `_normalize_salcs` call (the local `salcs` of the source).  Note the
lookup uses `group` as supplied, not `group.lower()`. -/
def buildSalcs (vectors : List (List PyNum)) (group : String) : Except PyErr (List SalcVal) :=
  match symmetry_func_dict group with
  | none => .error .keyError
  | some entries => buildLoop vectors entries

/-- `calc_salcs_func(ligands, group, mode)`. -/
def calc_salcs_func (cosd sind : ℚ → ℚ) (ligands : List (List PyNum))
    (group : String) (mode : String) : Except PyErr (List SalcVal) :=
  match
    (if mode = "angle" then _angles_to_vectors cosd sind ligands
     else if mode = "vector" then .ok ligands
     else .error .invalidMode) with
  | .error e => .error e
  | .ok vecs =>
    match buildSalcs vecs group with
    | .error e => .error e
    | .ok salcs => _normalize_salcs salcs

/-! ## Helper values and observation functions for the theorems -/

/-- The ligand label `a` as a coefficient vector over the symbols (a, b, c). -/
def lig_a : LC 3 := lcOf [1, 0, 0]

/-- The ligand label `b`. -/
def lig_b : LC 3 := lcOf [0, 1, 0]

/-- The ligand label `c`. -/
def lig_c : LC 3 := lcOf [0, 0, 1]

/-- A concrete stand-in for the trigonometric primitives in statements where
the angle branch is never taken. -/
def constZeroFun : ℚ → ℚ := fun _ => 0

mutual
/-- All float values occurring in a result value, in order. -/
def SalcVal.floatLeaves : SalcVal → List ℚ
  | .num (.float q) => [q]
  | .num (.int _) => []
  | .seq l => SalcVal.floatLeavesL l
/-- All float values occurring in a result list, in order. -/
def SalcVal.floatLeavesL : List SalcVal → List ℚ
  | [] => []
  | v :: rest => SalcVal.floatLeaves v ++ SalcVal.floatLeavesL rest
end

mutual
/-- Whether every numeric leaf of a result value is a Python `int`. -/
def SalcVal.allInt : SalcVal → Bool
  | .num v => v.isInt
  | .seq l => SalcVal.allIntL l
/-- Whether every numeric leaf of a result list is a Python `int`. -/
def SalcVal.allIntL : List SalcVal → Bool
  | [] => true
  | v :: rest => SalcVal.allInt v && SalcVal.allIntL rest
end

/-! ## C1: the C3v projection scenario -/

/-- Concrete evaluation of the ammonia-type C3v projection scenario (shared
by several theorems below). -/
theorem proj_abc_c3v_eval :
    calc_salcs_projection [lig_a, lig_b, lig_c, lig_a, lig_b, lig_c] "c3v" =
      .ok [lcOf [2, 2, 2], lcOf [0, 0, 0], lcOf [2, -1, -1]] := by
  show calc_salcs_projection [lcOf [1,0,0], lcOf [0,1,0], lcOf [0,0,1],
      lcOf [1,0,0], lcOf [0,1,0], lcOf [0,0,1]] "c3v" =
    .ok [lcOf [2,2,2], lcOf [0,0,0], lcOf [2,-1,-1]]
  have h0 : tables (pyLower "c3v") = some [[1,1,1],[1,1,-1],[2,-1,0]] := by decide
  have h1 : _expand_irreducible [1,1,1] (pyLower "c3v") = .ok [1,1,1,1,1,1] := by decide
  have h2 : _expand_irreducible [1,1,-1] (pyLower "c3v") = .ok [1,1,1,-1,-1,-1] := by decide
  have h3 : _expand_irreducible [2,-1,0] (pyLower "c3v") = .ok [2,-1,-1,0,0,0] := by decide
  have m1 : npMulBroadcast [1,1,1,1,1,1] [(lcOf [1,0,0] : LC 3), lcOf [0,1,0], lcOf [0,0,1],
      lcOf [1,0,0], lcOf [0,1,0], lcOf [0,0,1]] =
      .ok [lcScale 1 (lcOf [1,0,0]), lcScale 1 (lcOf [0,1,0]), lcScale 1 (lcOf [0,0,1]),
           lcScale 1 (lcOf [1,0,0]), lcScale 1 (lcOf [0,1,0]), lcScale 1 (lcOf [0,0,1])] := by
    with_unfolding_all decide
  have m2 : npMulBroadcast [1,1,1,-1,-1,-1] [(lcOf [1,0,0] : LC 3), lcOf [0,1,0], lcOf [0,0,1],
      lcOf [1,0,0], lcOf [0,1,0], lcOf [0,0,1]] =
      .ok [lcScale 1 (lcOf [1,0,0]), lcScale 1 (lcOf [0,1,0]), lcScale 1 (lcOf [0,0,1]),
           lcScale (-1) (lcOf [1,0,0]), lcScale (-1) (lcOf [0,1,0]), lcScale (-1) (lcOf [0,0,1])] := by
    with_unfolding_all decide
  have m3 : npMulBroadcast [2,-1,-1,0,0,0] [(lcOf [1,0,0] : LC 3), lcOf [0,1,0], lcOf [0,0,1],
      lcOf [1,0,0], lcOf [0,1,0], lcOf [0,0,1]] =
      .ok [lcScale 2 (lcOf [1,0,0]), lcScale (-1) (lcOf [0,1,0]), lcScale (-1) (lcOf [0,0,1]),
           lcScale 0 (lcOf [1,0,0]), lcScale 0 (lcOf [0,1,0]), lcScale 0 (lcOf [0,0,1])] := by
    with_unfolding_all decide
  have s1 : npSum [lcScale 1 (lcOf [1,0,0]), lcScale 1 (lcOf [0,1,0]), lcScale 1 (lcOf [0,0,1]),
      lcScale 1 (lcOf [1,0,0]), lcScale 1 (lcOf [0,1,0]), lcScale 1 (lcOf [0,0,1])] =
      (lcOf [2,2,2] : LC 3) := by with_unfolding_all decide
  have s2 : npSum [lcScale 1 (lcOf [1,0,0]), lcScale 1 (lcOf [0,1,0]), lcScale 1 (lcOf [0,0,1]),
      lcScale (-1) (lcOf [1,0,0]), lcScale (-1) (lcOf [0,1,0]), lcScale (-1) (lcOf [0,0,1])] =
      (lcOf [0,0,0] : LC 3) := by with_unfolding_all decide
  have s3 : npSum [lcScale 2 (lcOf [1,0,0]), lcScale (-1) (lcOf [0,1,0]), lcScale (-1) (lcOf [0,0,1]),
      lcScale 0 (lcOf [1,0,0]), lcScale 0 (lcOf [0,1,0]), lcScale 0 (lcOf [0,0,1])] =
      (lcOf [2,-1,-1] : LC 3) := by with_unfolding_all decide
  simp only [calc_salcs_projection, projLoop, h0, h1, h2, h3, m1, m2, m3, s1, s2, s3]

/-- C1: calling `calc_salcs_projection` with operation results
`[a, b, c, a, b, c]` (each ligand symbol appearing twice) and group name
`"c3v"` returns exactly the three-element list `[2a+2b+2c, 0, 2a-b-c]`, one
entry per irreducible representation in the table order of the group. -/
theorem c1_projection_c3v_scenario :
    calc_salcs_projection [lig_a, lig_b, lig_c, lig_a, lig_b, lig_c] "c3v" =
      .ok [lcOf [2, 2, 2], lcOf [0, 0, 0], lcOf [2, -1, -1]] :=
  proj_abc_c3v_eval

/-! ## Concrete inputs and outputs used by the function-method claims -/

/-- Shorthand for an `int` value. -/
def iv (n : ℤ) : PyNum := .int n

/-- Shorthand for a `float` value. -/
def fv (q : ℚ) : PyNum := .float q

/-- The square-planar ligand vectors `[[1,0,0],[0,1,0],[-1,0,0],[0,-1,0]]`
(Python integer literals). -/
def sqVecs : List (List PyNum) :=
  [[iv 1, iv 0, iv 0], [iv 0, iv 1, iv 0], [iv (-1), iv 0, iv 0], [iv 0, iv (-1), iv 0]]

/-- What `calc_salcs_func` returns for `sqVecs` and group `"d4h"`: plain
numeric coefficient lists (the docstring example of the source). -/
def sqSalcs : List SalcVal :=
  [.seq [.num (iv 1), .num (iv 1), .num (iv 1), .num (iv 1)],
   .num (iv 0),
   .seq [.num (iv 1), .num (iv (-1)), .num (iv 1), .num (iv (-1))],
   .num (iv 0), .num (iv 0), .num (iv 0), .num (iv 0), .num (iv 0), .num (iv 0),
   .seq [.seq [.num (iv 1), .num (iv 0), .num (iv (-1)), .num (iv 0)],
         .seq [.num (iv 0), .num (iv 1), .num (iv 0), .num (iv (-1))]]]

/-! ## C4: the square-planar D4h function-method scenario -/

/-- C4: `calc_salcs_func` takes no per-ligand-symbol argument; evaluated at
the square-planar vectors with group `"d4h"` in vector mode it returns the
plain numeric coefficient lists `[[1,1,1,1], 0, [1,-1,1,-1], 0, 0, 0, 0, 0,
0, [[1,0,-1,0],[0,1,0,-1]]]` — never symbolic combinations of ligand
labels.  (The four-argument call of the repository test, with the symbol
list as second argument, binds `mode` twice and raises `TypeError`.) -/
theorem c4_func_d4h_returns_numeric_lists :
    calc_salcs_func constZeroFun constZeroFun sqVecs "d4h" "vector" = .ok sqSalcs := by
  have hb : buildSalcs sqVecs "d4h" = .ok sqSalcs := by with_unfolding_all decide
  have hn : _normalize_salcs sqSalcs = .ok sqSalcs := by with_unfolding_all decide
  simp only [calc_salcs_func]
  rw [if_neg (by decide)]
  simp only [if_true]
  simp only [hb, hn]

/-! ## C9: the unguarded division of the normalizer -/

/-- The ligand vectors `[[1,0,0],[0,0,-1]]` of the claim, as the Python
integer literals they are written with. -/
def c9IntVecs : List (List PyNum) := [[iv 1, iv 0, iv 0], [iv 0, iv 0, iv (-1)]]

/-- The result of `calc_salcs_func` on `c9IntVecs` and `"d4h"`: every leaf
is an `int`, so normalization passes everything through and no division
happens. -/
def c9IntSalcs : List SalcVal :=
  [.seq [.seq [.num (iv 1), .num (iv 0)], .seq [.num (iv 0), .num (iv 1)]],
   .num (iv 0),
   .seq [.num (iv 1), .num (iv 0)],
   .num (iv 0), .num (iv 0), .num (iv 0),
   .seq [.num (iv 0), .num (iv (-1))],
   .num (iv 0), .num (iv 0),
   .seq [.num (iv 1), .num (iv 0)]]

/-- C9, counterexample: at the claimed example input `[[1,0,0],[0,0,-1]]`
(integer coordinates) `calc_salcs_func` does NOT raise `ZeroDivisionError`:
all evaluated values are `int`s, which `_normalize_salcs` passes through
unchanged, and the call returns normally. -/
theorem c9_integer_example_returns_normally :
    calc_salcs_func constZeroFun constZeroFun c9IntVecs "d4h" "vector" = .ok c9IntSalcs := by
  have hb : buildSalcs c9IntVecs "d4h" = .ok c9IntSalcs := by with_unfolding_all decide
  have hn : _normalize_salcs c9IntSalcs = .ok c9IntSalcs := by with_unfolding_all decide
  simp only [calc_salcs_func]
  rw [if_neg (by decide)]
  simp only [if_true]
  simp only [hb, hn]

/-- The same geometry as float literals `[[1.0,0.0,0.0],[0.0,0.0,-1.0]]`. -/
def c9FloatVecs : List (List PyNum) := [[fv 1, fv 0, fv 0], [fv 0, fv 0, fv (-1)]]

/-- The un-normalized value list for `c9FloatVecs`: the basis function `z`
survives with rounded values `[0.0, -1.0]`, whose maximum is `0.0`. -/
def c9FloatRaw : List SalcVal :=
  [.seq [.seq [.num (fv 1), .num (fv 0)], .seq [.num (fv 0), .num (fv 1)]],
   .num (iv 0),
   .seq [.num (fv 1), .num (fv 0)],
   .num (iv 0), .num (iv 0), .num (iv 0),
   .seq [.num (fv 0), .num (fv (-1))],
   .num (iv 0), .num (iv 0),
   .seq [.num (fv 1), .num (fv 0)]]

/-- C9, amended: with the same geometry supplied as floats, the basis
function `z` evaluates to the surviving not-all-zero list `[0.0, -1.0]`,
`max(...)` is `0`, and the unguarded division makes `calc_salcs_func` raise
`ZeroDivisionError` instead of returning a result. -/
theorem c9_float_example_zero_division :
    calc_salcs_func constZeroFun constZeroFun c9FloatVecs "d4h" "vector" = .error .zeroDiv := by
  have hb : buildSalcs c9FloatVecs "d4h" = .ok c9FloatRaw := by with_unfolding_all decide
  have hn : _normalize_salcs c9FloatRaw = .error .zeroDiv := by with_unfolding_all decide
  simp only [calc_salcs_func]
  rw [if_neg (by decide)]
  simp only [if_true]
  simp only [hb, hn]

/-! ## C2: normalization range, counterexample -/

/-- Float ligand vectors `[[0.0,0.0,-1.0],[0.0,0.0,-0.5]]`. -/
def c2Vecs : List (List PyNum) := [[fv 0, fv 0, fv (-1)], [fv 0, fv 0, fv (-1/2)]]

/-- The un-normalized value list for `c2Vecs` and group `"d4h"`. -/
def c2Raw : List SalcVal :=
  [.seq [.num (fv 1), .num (fv (1/4))],
   .num (iv 0), .num (iv 0), .num (iv 0), .num (iv 0), .num (iv 0),
   .seq [.num (fv (-1)), .num (fv (-1/2))],
   .num (iv 0), .num (iv 0), .num (iv 0)]

/-- What `calc_salcs_func` returns for `c2Vecs` and `"d4h"`: the `z` values
`[-1.0, -0.5]` are divided by their signed maximum `-0.5`, producing
`[2.0, 1.0]`. -/
def c2Salcs : List SalcVal :=
  [.seq [.num (fv 1), .num (fv (1/4))],
   .num (iv 0), .num (iv 0), .num (iv 0), .num (iv 0), .num (iv 0),
   .seq [.num (fv 2), .num (fv 1)],
   .num (iv 0), .num (iv 0), .num (iv 0)]

/-- C2, counterexample: a result list of `calc_salcs_func` containing the
non-integer coefficient `2.0`, which lies outside `[-1, 1]` (and is the
largest-magnitude entry of its sequence, yet differs from both `+1` and
`-1`): `_normalize_salcs` divides by the signed maximum of a sequence, not
by the entry of largest magnitude. -/
theorem c2_counterexample_out_of_range :
    calc_salcs_func constZeroFun constZeroFun c2Vecs "d4h" "vector" = .ok c2Salcs ∧
      ¬ (∀ q ∈ SalcVal.floatLeavesL c2Salcs, -1 ≤ q ∧ q ≤ 1) := by
  constructor
  · have hb : buildSalcs c2Vecs "d4h" = .ok c2Raw := by with_unfolding_all decide
    have hn : _normalize_salcs c2Raw = .ok c2Salcs := by with_unfolding_all decide
    simp only [calc_salcs_func]
    rw [if_neg (by decide)]
    simp only [if_true]
    simp only [hb, hn]
  · with_unfolding_all decide

/-! ## C3: case sensitivity of the two entry points, counterexample -/

/-- C3, counterexample: the two capitalization variants `"D4h"` and `"d4h"`
do NOT give the same result for `calc_salcs_func`: the source looks up
`symmetry_func_dict[group]` without lowercasing, so `"D4h"` misses the
lowercase-keyed table (`KeyError`) while `"d4h"` succeeds. -/
theorem c3_counterexample_func_case_sensitive :
    calc_salcs_func constZeroFun constZeroFun sqVecs "D4h" "vector" ≠
      calc_salcs_func constZeroFun constZeroFun sqVecs "d4h" "vector" := by
  have hL : calc_salcs_func constZeroFun constZeroFun sqVecs "D4h" "vector" =
      .error .keyError := by
    have hb : buildSalcs sqVecs "D4h" = .error .keyError := by decide
    simp only [calc_salcs_func]
    rw [if_neg (by decide)]
    simp only [if_true]
    simp only [hb]
  have hR : calc_salcs_func constZeroFun constZeroFun sqVecs "d4h" "vector" = .ok sqSalcs := by
    have hb : buildSalcs sqVecs "d4h" = .ok sqSalcs := by with_unfolding_all decide
    have hn : _normalize_salcs sqSalcs = .ok sqSalcs := by with_unfolding_all decide
    simp only [calc_salcs_func]
    rw [if_neg (by decide)]
    simp only [if_true]
    simp only [hb, hn]
  rw [hL, hR]
  decide

/-! ## C8: length mismatch in the projection engine, counterexample -/

/-- C8, counterexample: a five-element operation-results list for `"c3v"`
(which has 6 operations) does not complete silently: the elementwise
multiplication of the 6 expanded characters with the 5 supplied results
raises a numpy broadcast (shape-mismatch) error. -/
theorem c8_counterexample_length_mismatch_raises :
    calc_salcs_projection [lig_a, lig_b, lig_c, lig_a, lig_b] "c3v" =
      .error .broadcastErr := by
  show calc_salcs_projection [lcOf [1,0,0], lcOf [0,1,0], lcOf [0,0,1],
      lcOf [1,0,0], lcOf [0,1,0]] "c3v" = .error .broadcastErr
  have h0 : tables (pyLower "c3v") = some [[1,1,1],[1,1,-1],[2,-1,0]] := by decide
  have h1 : _expand_irreducible [1,1,1] (pyLower "c3v") = .ok [1,1,1,1,1,1] := by decide
  have m1 : npMulBroadcast [1,1,1,1,1,1] [(lcOf [1,0,0] : LC 3), lcOf [0,1,0], lcOf [0,0,1],
      lcOf [1,0,0], lcOf [0,1,0]] = .error .broadcastErr := by with_unfolding_all decide
  simp only [calc_salcs_projection, projLoop, h0, h1, m1]

/-! ## C5: expansion of condensed representations -/

theorem foldl_append_join {α β : Type} (piece : α → List β) :
    ∀ (l : List α) (acc : List β),
      l.foldl (fun a i => a ++ piece i) acc = acc ++ (l.map piece).flatten := by
  intro l
  induction l with
  | nil => intro acc; simp
  | cons x xs ih =>
    intro acc
    simp only [List.foldl_cons, List.map_cons, List.flatten_cons, ih (acc ++ piece x)]
    simp [List.append_assoc]

theorem range_map_replicate :
    ∀ (irred : List ℤ) (coeff : List ℕ), irred.length ≤ coeff.length →
      (List.range irred.length).map
          (fun i => List.replicate (coeff.getD i 0) (irred.getD i 0)) =
        List.zipWith (fun ch m => List.replicate m ch) irred coeff := by
  intro irred
  induction irred with
  | nil => intro coeff _; simp
  | cons a tl ih =>
    intro coeff hlen
    match coeff with
    | [] => simp at hlen
    | m :: mt =>
      have htl : tl.length ≤ mt.length := by simpa using hlen
      simp only [List.length_cons, List.range_succ_eq_map, List.map_cons, List.map_map]
      simp only [List.zipWith_cons_cons, List.cons.injEq]
      refine ⟨rfl, ?_⟩
      rw [← ih mt htl]
      apply List.map_congr_left
      intro i _
      simp [List.getD_cons_succ, Function.comp]

theorem zip_replicate_flatten_length :
    ∀ (irred : List ℤ) (coeff : List ℕ), irred.length = coeff.length →
      ((List.zipWith (fun ch m => List.replicate m ch) irred coeff).flatten).length =
        coeff.sum := by
  intro irred
  induction irred with
  | nil =>
    intro coeff hlen
    match coeff with
    | [] => simp
  | cons a tl ih =>
    intro coeff hlen
    match coeff with
    | m :: mt =>
      simp only [List.zipWith_cons_cons, List.flatten_cons, List.length_append,
        List.length_replicate, List.sum_cons]
      rw [ih mt (by simpa using hlen)]

/-- C5: for every group in the table and every condensed representation of
matching class count, `_expand_irreducible` returns the concatenation, in
class order, of each character repeated per its class multiplicity, and the
length of the result is the sum of the group class multiplicities (the
group total operation count). -/
theorem c5_expand_concatenation_and_length :
    ∀ (group : String) (coeff : List ℕ) (irred : List ℤ),
      table_coeff (pyLower group) = some coeff →
      irred.length = coeff.length →
      _expand_irreducible irred group =
        .ok ((List.zipWith (fun ch m => List.replicate m ch) irred coeff).flatten) ∧
      ((List.zipWith (fun ch m => List.replicate m ch) irred coeff).flatten).length =
        coeff.sum := by
  intro group coeff irred htab hlen
  constructor
  · simp only [_expand_irreducible, htab]
    rw [if_pos (le_of_eq hlen)]
    rw [foldl_append_join, range_map_replicate irred coeff (le_of_eq hlen)]
    simp
  · exact zip_replicate_flatten_length irred coeff hlen

/-- Witness for C5 at the docstring example: `[2, -1, 0]` for `c3v` expands
to `[2, -1, -1, 0, 0, 0]`, of length 1 + 2 + 3 = 6. -/
theorem c5_expand_witness :
    _expand_irreducible [2, -1, 0] "c3v" =
        .ok ((List.zipWith (fun ch m => List.replicate m ch)
          ([2, -1, 0] : List ℤ) [1, 2, 3]).flatten) ∧
      ((List.zipWith (fun ch m => List.replicate m ch)
          ([2, -1, 0] : List ℤ) [1, 2, 3]).flatten).length = List.sum [1, 2, 3] :=
  c5_expand_concatenation_and_length "c3v" [1, 2, 3] [2, -1, 0] (by decide) (by decide)

/-! ## C6: the invalid-mode rejection of `calc_salcs_func` -/

theorem unpack3_ne_invalidMode (uv : List PyNum) : unpack3 uv ≠ .error .invalidMode := by
  match uv with
  | [] => simp [unpack3]
  | [x] => simp [unpack3]
  | [x, y] => simp [unpack3]
  | x :: y :: z :: rest => simp [unpack3]

theorem ligandContribs_ne_invalidMode (coords : List (List PyNum)) (f : Expr) :
    ligandContribs coords f ≠ .error .invalidMode := by
  induction coords with
  | nil => simp [ligandContribs]
  | cons uv rest ih =>
    simp only [ligandContribs]
    cases hu : unpack3 uv with
    | error e =>
      have := unpack3_ne_invalidMode uv
      rw [hu] at this
      simpa using this
    | ok t =>
      obtain ⟨x, y, z⟩ := t
      cases hr : ligandContribs rest f with
      | error e =>
        rw [hr] at ih
        simpa using ih
      | ok l => simp

theorem survivingLists_ne_invalidMode (coords : List (List PyNum)) (funcs : List Expr) :
    survivingLists coords funcs ≠ .error .invalidMode := by
  induction funcs with
  | nil => simp [survivingLists]
  | cons f rest ih =>
    simp only [survivingLists]
    cases hc : ligandContribs coords f with
    | error e =>
      have := ligandContribs_ne_invalidMode coords f
      rw [hc] at this
      simpa using this
    | ok l =>
      cases hr : survivingLists coords rest with
      | error e =>
        rw [hr] at ih
        simpa using ih
      | ok rest' => simp

theorem eval_sym_func_ne_invalidMode (coords : List (List PyNum)) (funcs : List Expr) :
    _eval_sym_func coords funcs ≠ .error .invalidMode := by
  simp only [_eval_sym_func]
  cases hs : survivingLists coords funcs with
  | error e =>
    have := survivingLists_ne_invalidMode coords funcs
    rw [hs] at this
    simpa using this
  | ok l =>
    match l with
    | [] => simp
    | [s] => simp
    | s :: t :: rest => simp

theorem buildLoop_ne_invalidMode (vectors : List (List PyNum)) (entries : List BasisEntry) :
    buildLoop vectors entries ≠ .error .invalidMode := by
  induction entries with
  | nil => simp [buildLoop]
  | cons entry rest ih =>
    match entry with
    | .const c =>
      simp only [buildLoop]
      by_cases hc : c = 0 ∨ c = 1
      · rw [if_pos hc]
        cases hr : buildLoop vectors rest with
        | error e =>
          rw [hr] at ih
          simpa using ih
        | ok rest' => simp
      · rw [if_neg hc]
        simp
    | .funcs fs =>
      simp only [buildLoop]
      cases he : _eval_sym_func vectors fs with
      | error e =>
        have := eval_sym_func_ne_invalidMode vectors fs
        rw [he] at this
        simpa using this
      | ok v =>
        cases hr : buildLoop vectors rest with
        | error e =>
          rw [hr] at ih
          simpa using ih
        | ok rest' => simp

theorem buildSalcs_ne_invalidMode (vectors : List (List PyNum)) (group : String) :
    buildSalcs vectors group ≠ .error .invalidMode := by
  simp only [buildSalcs]
  cases hd : symmetry_func_dict group with
  | none => simp
  | some entries => exact buildLoop_ne_invalidMode vectors entries

theorem maxCtx_ne_invalidMode (ctx : List SalcVal) : maxCtx ctx ≠ .error .invalidMode := by
  simp only [maxCtx]
  by_cases ha : ctx.any SalcVal.isSeq
  · rw [if_pos ha]
    simp
  · rw [if_neg ha]
    cases hm : (ctx.map SalcVal.toQ).max? <;> simp

mutual
theorem normV_ne_invalidMode (ctx : List SalcVal) :
    ∀ (v : SalcVal), normV ctx v ≠ .error .invalidMode
  | .num v => by
    simp only [normV]
    by_cases hi : v.isInt
    · rw [if_pos hi]
      simp
    · rw [if_neg hi]
      cases hm : maxCtx ctx with
      | error e =>
        have := maxCtx_ne_invalidMode ctx
        rw [hm] at this
        simpa using this
      | ok m =>
        by_cases hz : m = 0 <;> simp [hz]
  | .seq l => by
    simp only [normV]
    cases hn : normL l l with
    | error e =>
      have := normL_ne_invalidMode l l
      rw [hn] at this
      simpa using this
    | ok l' => simp

theorem normL_ne_invalidMode (ctx : List SalcVal) :
    ∀ (l : List SalcVal), normL ctx l ≠ .error .invalidMode
  | [] => by simp [normL]
  | v :: rest => by
    simp only [normL]
    cases hv : normV ctx v with
    | error e =>
      have := normV_ne_invalidMode ctx v
      rw [hv] at this
      simpa using this
    | ok v' =>
      cases hr : normL ctx rest with
      | error e =>
        have := normL_ne_invalidMode ctx rest
        rw [hr] at this
        simpa using this
      | ok rest' => simp
end

theorem normalize_salcs_ne_invalidMode (salcs : List SalcVal) :
    _normalize_salcs salcs ≠ .error .invalidMode :=
  normL_ne_invalidMode salcs salcs

theorem angles_to_vectors_ne_invalidMode (cosd sind : ℚ → ℚ) (l : List (List PyNum)) :
    _angles_to_vectors cosd sind l ≠ .error .invalidMode := by
  induction l with
  | nil => simp [_angles_to_vectors]
  | cons orbital rest ih =>
    match orbital with
    | [] => simp [_angles_to_vectors]
    | [x] => simp [_angles_to_vectors]
    | phi :: theta :: tl =>
      simp only [_angles_to_vectors]
      cases hr : _angles_to_vectors cosd sind rest with
      | error e =>
        rw [hr] at ih
        simpa using ih
      | ok rest' => simp

theorem funcPipeline_ne_invalidMode (vecsRes : Except PyErr (List (List PyNum)))
    (group : String) (hv : vecsRes ≠ .error .invalidMode) :
    (match vecsRes with
     | .error e => Except.error e
     | .ok vecs =>
       match buildSalcs vecs group with
       | .error e => Except.error e
       | .ok salcs => _normalize_salcs salcs) ≠ .error .invalidMode := by
  cases vecsRes with
  | error e => simpa using hv
  | ok vecs =>
    show (match buildSalcs vecs group with
      | Except.error e => Except.error e
      | Except.ok salcs => _normalize_salcs salcs) ≠ Except.error PyErr.invalidMode
    cases hb : buildSalcs vecs group with
    | error e =>
      have := buildSalcs_ne_invalidMode vecs group
      rw [hb] at this
      simpa using this
    | ok salcs => simpa using normalize_salcs_ne_invalidMode salcs

/-- C6: `calc_salcs_func` reports the explicit invalid-mode failure exactly
when `mode` is neither `"angle"` nor `"vector"`, for every trigonometric
primitive pair, ligand list and group name — in particular also for group
names with no entry in the basis-function table, because the rejection
happens before the table lookup, so no other computation can mask or
replace it. -/
theorem c6_invalid_mode_iff :
    ∀ (cosd sind : ℚ → ℚ) (ligands : List (List PyNum)) (group mode : String),
      calc_salcs_func cosd sind ligands group mode = .error .invalidMode ↔
        (mode ≠ "angle" ∧ mode ≠ "vector") := by
  intro cosd sind ligands group mode
  constructor
  · intro h
    by_cases h1 : mode = "angle"
    · exfalso
      subst h1
      exact funcPipeline_ne_invalidMode (_angles_to_vectors cosd sind ligands) group
        (angles_to_vectors_ne_invalidMode cosd sind ligands) h
    · by_cases h2 : mode = "vector"
      · exfalso
        subst h2
        exact funcPipeline_ne_invalidMode (.ok ligands) group (by simp) h
      · exact ⟨h1, h2⟩
  · intro hm
    obtain ⟨h1, h2⟩ := hm
    simp only [calc_salcs_func]
    rw [if_neg h1, if_neg h2]

/-! ## C3, amended: the projection entry point is case-insensitive -/

/-- C3, amended: point-group names are case-insensitive for
`calc_salcs_projection` (both of its table lookups lowercase the name), but
not for `calc_salcs_func`, whose basis-function lookup uses the name as
supplied (see the counterexample).  Any two spellings with the same
lowercasing give identical projection results. -/
theorem c3_amended_projection_case_insensitive :
    ∀ {n : ℕ} (p : List (LC n)) (g1 g2 : String),
      pyLower g1 = pyLower g2 →
      calc_salcs_projection p g1 = calc_salcs_projection p g2 := by
  intro n p g1 g2 h
  have hrows : ∀ rows, projLoop p g1 rows = projLoop p g2 rows := by
    intro rows
    induction rows with
    | nil => rfl
    | cons irred rest ih => simp only [projLoop, h, ih]
  simp only [calc_salcs_projection, h, hrows]

/-- Witness for the amended C3: `"C3v"` and `"c3v"` agree on the ammonia
scenario input. -/
theorem c3_amended_witness :
    calc_salcs_projection [lig_a, lig_b, lig_c, lig_a, lig_b, lig_c] "C3v" =
      calc_salcs_projection [lig_a, lig_b, lig_c, lig_a, lig_b, lig_c] "c3v" :=
  c3_amended_projection_case_insensitive _ "C3v" "c3v" (by decide)

/-! ## C7: zero character-weighted sums are reported as the literal zero -/

/-- The character-weighted sum of the operation results, written directly as
a mathematical sum: coefficient `j` is `Σ_op chars[op] * projection[op][j]`. -/
def charWeightedSum {n : ℕ} (chars : List ℤ) (p : List (LC n)) : LC n :=
  fun j => (List.zipWith (fun (c : ℤ) u => (c : ℚ) * u j) chars p).sum

theorem npSum_apply {n : ℕ} :
    ∀ (l : List (LC n)) (acc : LC n) (j : Fin n),
      l.foldl lcAdd acc j = acc j + (l.map (fun u => u j)).sum := by
  intro l
  induction l with
  | nil => intro acc j; simp
  | cons u t ih =>
    intro acc j
    simp only [List.foldl_cons, List.map_cons, List.sum_cons]
    rw [ih (lcAdd acc u) j]
    simp only [lcAdd]
    ring

theorem zipWith_scale_apply {n : ℕ} (j : Fin n) :
    ∀ (chars : List ℤ) (p : List (LC n)),
      (List.zipWith lcScale chars p).map (fun u => u j) =
        List.zipWith (fun (c : ℤ) u => (c : ℚ) * u j) chars p := by
  intro chars
  induction chars with
  | nil => intro p; simp
  | cons c ct ih =>
    intro p
    match p with
    | [] => simp
    | u :: pt =>
      simp only [List.zipWith_cons_cons, List.map_cons]
      rw [ih pt]
      rfl

theorem npSum_zipWith_scale {n : ℕ} (chars : List ℤ) (p : List (LC n)) :
    npSum (List.zipWith lcScale chars p) = charWeightedSum chars p := by
  funext j
  show (List.zipWith lcScale chars p).foldl lcAdd (lcZero n) j = _
  rw [npSum_apply]
  simp only [lcZero, charWeightedSum, zero_add]
  rw [zipWith_scale_apply]

theorem projLoop_get {n : ℕ} (p : List (LC n)) (group : String) :
    ∀ (rows : List (List ℤ)) (res : List (LC n)),
      projLoop p group rows = .ok res →
      ∀ (i : ℕ) (irred : List ℤ), rows.get? i = some irred →
        ∃ (chars : List ℤ) (product : List (LC n)),
          _expand_irreducible irred (pyLower group) = .ok chars ∧
          npMulBroadcast chars p = .ok product ∧
          res.get? i = some (npSum product) := by
  intro rows
  induction rows with
  | nil =>
    intro res _ i irred hi
    simp at hi
  | cons r rest ih =>
    intro res h i irred hi
    simp only [projLoop] at h
    split at h
    · simp at h
    next chars he =>
      split at h
      · simp at h
      next product hm =>
        split at h
        · simp at h
        next rest' hr =>
          simp only [Except.ok.injEq] at h
          subst h
          cases i with
          | zero =>
            simp only [List.get?_cons_zero, Option.some.injEq] at hi
            subst hi
            exact ⟨chars, product, he, hm, rfl⟩
          | succ i =>
            simp only [List.get?_cons_succ] at hi
            exact ih rest' hr i irred hi

/-- C7: whenever the character-weighted sum of the expanded characters of an
irreducible representation with the supplied operation results is the zero
function on every ligand symbol — including when every product term is
already zero — the corresponding entry of the list `calc_salcs_projection`
returns is the canonical literal zero combination `lcZero`, directly
comparable with 0. -/
theorem c7_zero_sum_is_literal_zero :
    ∀ {n : ℕ} (p : List (LC n)) (group : String) (res : List (LC n))
      (rows : List (List ℤ)) (i : ℕ) (irred chars : _),
      tables (pyLower group) = some rows →
      calc_salcs_projection p group = .ok res →
      rows.get? i = some irred →
      _expand_irreducible irred (pyLower group) = .ok chars →
      chars.length = p.length →
      (∀ j, charWeightedSum chars p j = 0) →
      res.get? i = some (lcZero n) := by
  intro n p group res rows i irred chars htab hres hrow hexp hlen hzero
  simp only [calc_salcs_projection, htab] at hres
  obtain ⟨chars2, product, hexp2, hmul, hget⟩ := projLoop_get p group rows res hres i irred hrow
  rw [hexp] at hexp2
  simp only [Except.ok.injEq] at hexp2
  subst hexp2
  simp only [npMulBroadcast] at hmul
  rw [if_pos (by simpa using hlen)] at hmul
  simp only [Except.ok.injEq] at hmul
  subst hmul
  rw [hget]
  congr 1
  rw [npSum_zipWith_scale]
  funext j
  exact hzero j

/-- Witness for C7 at the C3v ammonia scenario, irreducible representation
index 1 (A2): its character-weighted sum cancels, and the returned entry is
the literal zero combination. -/
theorem c7_witness :
    (∀ j, charWeightedSum ([1, 1, 1, -1, -1, -1] : List ℤ)
        [lig_a, lig_b, lig_c, lig_a, lig_b, lig_c] j = 0) ∧
      ([lcOf [2, 2, 2], lcOf [0, 0, 0], lcOf [2, -1, -1]] : List (LC 3)).get? 1 =
        some (lcZero 3) := by
  constructor
  · with_unfolding_all decide
  · exact c7_zero_sum_is_literal_zero [lig_a, lig_b, lig_c, lig_a, lig_b, lig_c] "c3v"
      [lcOf [2, 2, 2], lcOf [0, 0, 0], lcOf [2, -1, -1]]
      [[1, 1, 1], [1, 1, -1], [2, -1, 0]] 1 [1, 1, -1] [1, 1, 1, -1, -1, -1]
      (by decide) proj_abc_c3v_eval (by decide) (by decide) (by decide)
      (by with_unfolding_all decide)

/-! ## C8, amended: what really happens on mismatched projection input -/

/-- C8, amended: `calc_salcs_projection` performs no explicit validation of
the operation-results list for `"c3v"`: any six-element list — correctly
ordered or not — completes and produces output computed from the given
order (silently incorrect for a misordered list); but a list whose length
differs from the group's six operations (and from the broadcastable length
1) makes the numpy elementwise multiplication raise a shape-mismatch error
instead of completing. -/
theorem c8_amended_order_silent_length_raises :
    (∀ p : List (LC 3), p.length = 6 →
      ∃ r, calc_salcs_projection p "c3v" = .ok r) ∧
    (∀ p : List (LC 3), p.length ≠ 6 → p.length ≠ 1 →
      calc_salcs_projection p "c3v" = .error .broadcastErr) := by
  have h0 : tables (pyLower "c3v") = some [[1,1,1],[1,1,-1],[2,-1,0]] := by decide
  have h1 : _expand_irreducible [1,1,1] (pyLower "c3v") = .ok [1,1,1,1,1,1] := by decide
  have h2 : _expand_irreducible [1,1,-1] (pyLower "c3v") = .ok [1,1,1,-1,-1,-1] := by decide
  have h3 : _expand_irreducible [2,-1,0] (pyLower "c3v") = .ok [2,-1,-1,0,0,0] := by decide
  constructor
  · intro p hp
    have key : ∀ xs : List ℤ, xs.length = 6 →
        npMulBroadcast xs p = .ok (List.zipWith lcScale xs p) := by
      intro xs hxs
      have hl : xs.length = p.length := by rw [hxs, hp]
      simp only [npMulBroadcast, if_pos hl]
    refine ⟨[npSum (List.zipWith lcScale [1,1,1,1,1,1] p),
        npSum (List.zipWith lcScale [1,1,1,-1,-1,-1] p),
        npSum (List.zipWith lcScale [2,-1,-1,0,0,0] p)], ?_⟩
    simp only [calc_salcs_projection, h0, projLoop, h1, h2, h3,
      key [1,1,1,1,1,1] (by decide), key [1,1,1,-1,-1,-1] (by decide),
      key [2,-1,-1,0,0,0] (by decide)]
  · intro p hp6 hp1
    have hm : npMulBroadcast [1,1,1,1,1,1] p = .error .broadcastErr := by
      have hne : ¬ ([1,1,1,1,1,1] : List ℤ).length = p.length := by
        intro h
        exact hp6 (by rw [← h]; decide)
      simp only [npMulBroadcast, if_neg hne]
      match p, hp1 with
      | [], _ => rfl
      | [u], h => exact absurd rfl h
      | u :: v :: t, _ => rfl
    simp only [calc_salcs_projection, h0, projLoop, h1, hm]

/-- Witness for the amended C8: the in-order six-element scenario completes,
and a five-element input raises the broadcast error. -/
theorem c8_amended_witness :
    (∃ r, calc_salcs_projection [lig_a, lig_b, lig_c, lig_a, lig_b, lig_c] "c3v" = .ok r) ∧
      calc_salcs_projection [lig_b, lig_a, lig_c, lig_a, lig_b] "c3v" =
        .error .broadcastErr :=
  ⟨c8_amended_order_silent_length_raises.1 _ (by decide),
   c8_amended_order_silent_length_raises.2 _ (by decide) (by decide)⟩

/-! ## C2, amended: what normalization guarantees and when -/

theorem roundHalfEven_ge (y : ℚ) (h1 : -100 ≤ y) : -100 ≤ roundHalfEven y := by
  have hfl : (-100 : ℤ) ≤ ⌊y⌋ := Int.le_floor.mpr (by exact_mod_cast h1)
  simp only [roundHalfEven, qfloor_eq_floor]
  split_ifs <;> omega

theorem roundHalfEven_le (y : ℚ) (h2 : y ≤ 100) : roundHalfEven y ≤ 100 := by
  have hfu : (⌊y⌋ : ℚ) ≤ y := Int.floor_le y
  have hftop : ⌊y⌋ ≤ 100 := by exact_mod_cast le_trans hfu h2
  simp only [roundHalfEven, qfloor_eq_floor]
  split_ifs with hr1 hr2 hpar
  · exact hftop
  · have hge : (1 : ℚ)/2 ≤ y - ⌊y⌋ := not_lt.mp hr1
    have hlt : (⌊y⌋ : ℚ) < 100 := by linarith
    have : ⌊y⌋ < 100 := by exact_mod_cast hlt
    omega
  · exact hftop
  · have hge : (1 : ℚ)/2 ≤ y - ⌊y⌋ := not_lt.mp hr1
    have hlt : (⌊y⌋ : ℚ) < 100 := by linarith
    have : ⌊y⌋ < 100 := by exact_mod_cast hlt
    omega

theorem round2q_unit (x : ℚ) (h1 : -1 ≤ x) (h2 : x ≤ 1) :
    -1 ≤ round2q x ∧ round2q x ≤ 1 := by
  have hy1 : -100 ≤ x * 100 := by linarith
  have hy2 : x * 100 ≤ 100 := by linarith
  have hg := roundHalfEven_ge (x * 100) hy1
  have hl := roundHalfEven_le (x * 100) hy2
  have hgq : (-100 : ℚ) ≤ (roundHalfEven (x * 100) : ℚ) := by exact_mod_cast hg
  have hlq : ((roundHalfEven (x * 100) : ℚ)) ≤ 100 := by exact_mod_cast hl
  unfold round2q
  constructor <;> [linarith; linarith]

theorem foldl_max_eq (m : ℚ) :
    ∀ (l : List ℚ) (a : ℚ), (a = m ∨ m ∈ l) → a ≤ m → (∀ q ∈ l, q ≤ m) →
      l.foldl max a = m := by
  intro l
  induction l with
  | nil =>
    intro a ha hle _
    rcases ha with h | h
    · exact h
    · simp at h
  | cons b t ih =>
    intro a ha hle hall
    simp only [List.foldl_cons]
    have hb : b ≤ m := hall b (List.mem_cons_self b t)
    have ht : ∀ q ∈ t, q ≤ m := fun q hq => hall q (List.mem_cons_of_mem b hq)
    rcases ha with h | h
    · subst h
      exact ih (max a b) (Or.inl (max_eq_left hb)) (max_le le_rfl hb) ht
    · rcases List.mem_cons.mp h with h | h
      · subst h
        exact ih (max a m) (Or.inl (max_eq_right hle)) (max_le hle le_rfl) ht
      · exact ih (max a b) (Or.inr h) (max_le hle hb) ht

theorem map_toQ_floats : ∀ qs : List ℚ,
    (qs.map (fun q => SalcVal.num (.float q))).map SalcVal.toQ = qs := by
  intro qs
  induction qs with
  | nil => rfl
  | cons q t ih =>
    simp only [List.map_cons]
    rw [ih]
    rfl

theorem maxCtx_all_floats (qs : List ℚ) (m : ℚ)
    (hm : m ∈ qs) (hall : ∀ q ∈ qs, q ≤ m) :
    maxCtx (qs.map (fun q => SalcVal.num (.float q))) = .ok m := by
  simp only [maxCtx]
  rw [if_neg (by simp [SalcVal.isSeq]), map_toQ_floats]
  cases qs with
  | nil => simp at hm
  | cons a t =>
    have hft : t.foldl max a = m := by
      have ht : ∀ q ∈ t, q ≤ m := fun q hq => hall q (List.mem_cons_of_mem a hq)
      rcases List.mem_cons.mp hm with h | h
      · exact foldl_max_eq m t a (Or.inl h.symm) (le_of_eq h.symm) ht
      · exact foldl_max_eq m t a (Or.inr h) (hall a (List.mem_cons_self a t)) ht
    simp only [List.max?]
    rw [hft]

theorem normV_float (ctx : List SalcVal) (q m : ℚ)
    (hmax : maxCtx ctx = .ok m) (hm0 : m ≠ 0) :
    normV ctx (.num (.float q)) = .ok (.num (.float (round2q (q / m)))) := by
  simp only [normV, PyNum.isInt]
  rw [if_neg (by simp), hmax]
  simp [hm0, PyNum.round2, PyNum.toQ]

theorem normL_map_of (ctx : List SalcVal) (f g : ℚ → SalcVal) :
    ∀ (qs : List ℚ), (∀ q ∈ qs, normV ctx (f q) = .ok (g q)) →
      normL ctx (qs.map f) = .ok (qs.map g) := by
  intro qs
  induction qs with
  | nil => intro _; rfl
  | cons q t ih =>
    intro h
    simp only [List.map_cons, normL]
    rw [h q (List.mem_cons_self q t), ih (fun r hr => h r (List.mem_cons_of_mem q hr))]

/-- C2, amended: `_normalize_salcs` divides every non-integer value of a
coefficient sequence by the sequence's signed maximum (not by the entry of
largest magnitude) and rounds to 2 decimal places.  Whenever the signed
maximum is also the largest magnitude of the sequence (and is nonzero),
every normalized value lies in `[-1, 1]` and the maximal entry maps to
`+1`; the counterexample shows the property fails when a negative entry
exceeds the maximum in magnitude. -/
theorem c2_amended_normalize_divides_by_max (qs : List ℚ) (m : ℚ)
    (hm : m ∈ qs) (habs : ∀ q ∈ qs, |q| ≤ m) (hm0 : m ≠ 0) :
    _normalize_salcs (qs.map (fun q => SalcVal.num (.float q))) =
        .ok (qs.map (fun q => SalcVal.num (.float (round2q (q / m))))) ∧
      (∀ q ∈ qs, -1 ≤ round2q (q / m) ∧ round2q (q / m) ≤ 1) ∧
      round2q (m / m) = 1 := by
  have hmpos : 0 < m := lt_of_le_of_ne (le_trans (abs_nonneg m) (habs m hm)) (Ne.symm hm0)
  have hle : ∀ q ∈ qs, q ≤ m := fun q hq => le_trans (le_abs_self q) (habs q hq)
  have hmax : maxCtx (qs.map (fun q => SalcVal.num (.float q))) = .ok m :=
    maxCtx_all_floats qs m hm hle
  refine ⟨?_, ?_, ?_⟩
  · exact normL_map_of _ _ _ qs (fun q _ => normV_float _ q m hmax hm0)
  · intro q hq
    have h1 : -1 ≤ q / m := by
      rw [le_div_iff₀ hmpos]
      have := (abs_le.mp (habs q hq)).1
      linarith
    have h2 : q / m ≤ 1 := by
      rw [div_le_iff₀ hmpos]
      have := (abs_le.mp (habs q hq)).2
      linarith
    exact round2q_unit _ h1 h2
  · rw [div_self hm0]
    with_unfolding_all decide

/-- Witness for the amended C2 on the sequence `[0.5, -0.25, 1.0]` with
maximum `1.0`. -/
theorem c2_amended_witness :
    _normalize_salcs (([1/2, -1/4, 1] : List ℚ).map (fun q => SalcVal.num (.float q))) =
        .ok (([1/2, -1/4, 1] : List ℚ).map
          (fun q => SalcVal.num (.float (round2q (q / 1))))) ∧
      (∀ q ∈ ([1/2, -1/4, 1] : List ℚ), -1 ≤ round2q (q / 1) ∧ round2q (q / 1) ≤ 1) ∧
      round2q ((1 : ℚ) / 1) = 1 :=
  c2_amended_normalize_divides_by_max [1/2, -1/4, 1] 1 (by with_unfolding_all decide)
    (by with_unfolding_all decide) (by with_unfolding_all decide)

/-! ## C10: integer coordinates are returned raw, floats are normalized -/

theorem add_isInt {a b : PyNum} (ha : a.isInt = true) (hb : b.isInt = true) :
    (a.add b).isInt = true := by
  cases a with
  | int n =>
    cases b with
    | int m => rfl
    | float q => simp [PyNum.isInt] at hb
  | float q => simp [PyNum.isInt] at ha

theorem sub_isInt {a b : PyNum} (ha : a.isInt = true) (hb : b.isInt = true) :
    (a.sub b).isInt = true := by
  cases a with
  | int n =>
    cases b with
    | int m => rfl
    | float q => simp [PyNum.isInt] at hb
  | float q => simp [PyNum.isInt] at ha

theorem mul_isInt {a b : PyNum} (ha : a.isInt = true) (hb : b.isInt = true) :
    (a.mul b).isInt = true := by
  cases a with
  | int n =>
    cases b with
    | int m => rfl
    | float q => simp [PyNum.isInt] at hb
  | float q => simp [PyNum.isInt] at ha

theorem pow_isInt {a : PyNum} (k : ℕ) (ha : a.isInt = true) : (a.pow k).isInt = true := by
  cases a with
  | int n => rfl
  | float q => simp [PyNum.isInt] at ha

theorem round2_isInt {v : PyNum} (h : v.isInt = true) : (PyNum.round2 v).isInt = true := by
  cases v with
  | int n => rfl
  | float q => simp [PyNum.isInt] at h

theorem eval_isInt (x y z : PyNum) (hx : x.isInt = true) (hy : y.isInt = true)
    (hz : z.isInt = true) : ∀ f : Expr, (f.eval x y z).isInt = true := by
  intro f
  induction f with
  | X => exact hx
  | Y => exact hy
  | Z => exact hz
  | add a b iha ihb => exact add_isInt iha ihb
  | sub a b iha ihb => exact sub_isInt iha ihb
  | mul a b iha ihb => exact mul_isInt iha ihb
  | pow a k iha => exact pow_isInt k iha

theorem unpack3_mem {uv : List PyNum} {x y z : PyNum}
    (h : unpack3 uv = .ok (x, y, z)) : x ∈ uv ∧ y ∈ uv ∧ z ∈ uv := by
  match uv, h with
  | a :: b :: c :: rest, h =>
    simp only [unpack3, Except.ok.injEq, Prod.mk.injEq] at h
    obtain ⟨hx, hy, hz⟩ := h
    subst hx
    subst hy
    subst hz
    refine ⟨List.mem_cons_self _ _, ?_, ?_⟩
    · exact List.mem_cons_of_mem _ (List.mem_cons_self _ _)
    · exact List.mem_cons_of_mem _ (List.mem_cons_of_mem _ (List.mem_cons_self _ _))

theorem ligandContribs_int (f : Expr) :
    ∀ (coords : List (List PyNum)) (l : List PyNum),
      (∀ uv ∈ coords, ∀ u ∈ uv, u.isInt = true) →
      ligandContribs coords f = .ok l → ∀ v ∈ l, v.isInt = true := by
  intro coords
  induction coords with
  | nil =>
    intro l _ hc
    simp only [ligandContribs, Except.ok.injEq] at hc
    subst hc
    simp
  | cons uv rest ih =>
    intro l hint hc
    simp only [ligandContribs] at hc
    cases hu : unpack3 uv with
    | error e =>
      simp only [hu] at hc
      exact Except.noConfusion hc
    | ok t =>
      obtain ⟨x, y, z⟩ := t
      simp only [hu] at hc
      cases hr : ligandContribs rest f with
      | error e =>
        simp only [hr] at hc
        exact Except.noConfusion hc
      | ok rest' =>
        simp only [hr, Except.ok.injEq] at hc
        subst hc
        intro v hv
        rcases List.mem_cons.mp hv with h | h
        · subst h
          obtain ⟨hx, hy, hz⟩ := unpack3_mem hu
          have hu1 := hint uv (List.mem_cons_self uv rest)
          exact round2_isInt (eval_isInt x y z (hu1 x hx) (hu1 y hy) (hu1 z hz) f)
        · exact ih rest' (fun w hw => hint w (List.mem_cons_of_mem uv hw)) hr v h

theorem survivingLists_int :
    ∀ (funcs : List Expr) (coords : List (List PyNum)) (ll : List (List PyNum)),
      (∀ uv ∈ coords, ∀ u ∈ uv, u.isInt = true) →
      survivingLists coords funcs = .ok ll → ∀ l ∈ ll, ∀ u ∈ l, u.isInt = true := by
  intro funcs
  induction funcs with
  | nil =>
    intro coords ll _ hs
    simp only [survivingLists, Except.ok.injEq] at hs
    subst hs
    simp
  | cons f rest ih =>
    intro coords ll hint hs
    simp only [survivingLists] at hs
    split at hs
    · simp at hs
    next l hc =>
      split at hs
      · simp at hs
      next rest' hr =>
        simp only [Except.ok.injEq] at hs
        subst hs
        intro s hsmem
        split at hsmem
        · rcases List.mem_cons.mp hsmem with h | h
          · subst h
            exact ligandContribs_int f coords s hint hc
          · exact ih coords rest' hint hr s h
        · exact ih coords rest' hint hr s hsmem

theorem allIntL_map_num (s : List PyNum) (h : ∀ u ∈ s, u.isInt = true) :
    SalcVal.allIntL (s.map SalcVal.num) = true := by
  induction s with
  | nil => rfl
  | cons u t ih =>
    simp only [List.map_cons, SalcVal.allIntL, SalcVal.allInt, Bool.and_eq_true]
    exact ⟨h u (List.mem_cons_self u t),
      ih (fun w hw => h w (List.mem_cons_of_mem u hw))⟩

theorem allIntL_map_seq (ll : List (List PyNum))
    (h : ∀ l ∈ ll, ∀ u ∈ l, u.isInt = true) :
    SalcVal.allIntL (ll.map (fun s => SalcVal.seq (s.map SalcVal.num))) = true := by
  induction ll with
  | nil => rfl
  | cons l t ih =>
    simp only [List.map_cons, SalcVal.allIntL, SalcVal.allInt, Bool.and_eq_true]
    exact ⟨allIntL_map_num l (h l (List.mem_cons_self l t)),
      ih (fun w hw => h w (List.mem_cons_of_mem l hw))⟩

theorem eval_sym_func_allInt (coords : List (List PyNum)) (funcs : List Expr)
    (v : SalcVal) (hint : ∀ uv ∈ coords, ∀ u ∈ uv, u.isInt = true)
    (he : _eval_sym_func coords funcs = .ok v) : SalcVal.allInt v = true := by
  simp only [_eval_sym_func] at he
  cases hs : survivingLists coords funcs with
  | error e =>
    simp only [hs] at he
    exact Except.noConfusion he
  | ok ll =>
    have hall := survivingLists_int funcs coords ll hint hs
    match ll, he with
    | [], he =>
      simp only [hs, Except.ok.injEq] at he
      subst he
      rfl
    | [s], he =>
      simp only [hs, Except.ok.injEq] at he
      subst he
      exact allIntL_map_num s (hall s (List.mem_cons_self s []))
    | s :: t :: r, he =>
      simp only [hs, Except.ok.injEq] at he
      subst he
      exact allIntL_map_seq (s :: t :: r) hall

theorem buildLoop_allInt :
    ∀ (entries : List BasisEntry) (coords : List (List PyNum)) (salcs : List SalcVal),
      (∀ uv ∈ coords, ∀ u ∈ uv, u.isInt = true) →
      buildLoop coords entries = .ok salcs → SalcVal.allIntL salcs = true := by
  intro entries
  induction entries with
  | nil =>
    intro coords salcs _ hb
    simp only [buildLoop, Except.ok.injEq] at hb
    subst hb
    rfl
  | cons entry rest ih =>
    intro coords salcs hint hb
    match entry with
    | .const c =>
      simp only [buildLoop] at hb
      split at hb
      · split at hb
        · simp at hb
        next rest' hr =>
          simp only [Except.ok.injEq] at hb
          subst hb
          simp only [SalcVal.allIntL, SalcVal.allInt, PyNum.isInt, Bool.and_eq_true]
          exact ⟨trivial, ih coords rest' hint hr⟩
      · simp at hb
    | .funcs fs =>
      simp only [buildLoop] at hb
      split at hb
      · simp at hb
      next v he =>
        split at hb
        · simp at hb
        next rest' hr =>
          simp only [Except.ok.injEq] at hb
          subst hb
          simp only [SalcVal.allIntL, Bool.and_eq_true]
          exact ⟨eval_sym_func_allInt coords fs v hint he, ih coords rest' hint hr⟩

theorem buildSalcs_allInt (coords : List (List PyNum)) (group : String)
    (salcs : List SalcVal) (hint : ∀ uv ∈ coords, ∀ u ∈ uv, u.isInt = true)
    (hb : buildSalcs coords group = .ok salcs) : SalcVal.allIntL salcs = true := by
  simp only [buildSalcs] at hb
  split at hb
  · simp at hb
  next entries hd => exact buildLoop_allInt entries coords salcs hint hb

mutual
theorem normV_allInt_id (ctx : List SalcVal) :
    ∀ (v : SalcVal), SalcVal.allInt v = true → normV ctx v = .ok v
  | .num u => fun h => by
    simp only [SalcVal.allInt] at h
    simp only [normV, if_pos h]
  | .seq l => fun h => by
    simp only [SalcVal.allInt] at h
    simp only [normV]
    rw [normL_allInt_id l l h]
theorem normL_allInt_id (ctx : List SalcVal) :
    ∀ (l : List SalcVal), SalcVal.allIntL l = true → normL ctx l = .ok l
  | [] => fun _ => rfl
  | v :: rest => fun h => by
    simp only [SalcVal.allIntL, Bool.and_eq_true] at h
    simp only [normL]
    rw [normV_allInt_id ctx v h.1, normL_allInt_id ctx rest h.2]
end

/-- Doubled square-planar geometry as Python integer literals. -/
def dblIntVecs : List (List PyNum) :=
  [[iv 2, iv 0, iv 0], [iv 0, iv 2, iv 0], [iv (-2), iv 0, iv 0], [iv 0, iv (-2), iv 0]]

/-- The identical geometry as float literals. -/
def dblFloatVecs : List (List PyNum) :=
  [[fv 2, fv 0, fv 0], [fv 0, fv 2, fv 0], [fv (-2), fv 0, fv 0], [fv 0, fv (-2), fv 0]]

/-- The raw basis-function values for `dblFloatVecs`: `x**2+y**2` gives
`[4.0, 4.0, 4.0, 4.0]`, etc. -/
def dblFloatRaw : List SalcVal :=
  [.seq [.num (fv 4), .num (fv 4), .num (fv 4), .num (fv 4)],
   .num (iv 0),
   .seq [.num (fv 4), .num (fv (-4)), .num (fv 4), .num (fv (-4))],
   .num (iv 0), .num (iv 0), .num (iv 0), .num (iv 0), .num (iv 0), .num (iv 0),
   .seq [.seq [.num (fv 2), .num (fv 0), .num (fv (-2)), .num (fv 0)],
         .seq [.num (fv 0), .num (fv 2), .num (fv 0), .num (fv (-2))]]]

/-- What `calc_salcs_func` returns for `dblFloatVecs`: each float sequence
divided through by its maximum. -/
def dblFloatSalcs : List SalcVal :=
  [.seq [.num (fv 1), .num (fv 1), .num (fv 1), .num (fv 1)],
   .num (iv 0),
   .seq [.num (fv 1), .num (fv (-1)), .num (fv 1), .num (fv (-1))],
   .num (iv 0), .num (iv 0), .num (iv 0), .num (iv 0), .num (iv 0), .num (iv 0),
   .seq [.seq [.num (fv 1), .num (fv 0), .num (fv (-1)), .num (fv 0)],
         .seq [.num (fv 0), .num (fv 1), .num (fv 0), .num (fv (-1))]]]

/-- C10: in vector mode with all-integer coordinates, every evaluated
basis-function contribution is an `int` (round of an `int` is an `int`) and
`_normalize_salcs` passes integers through unchanged, so `calc_salcs_func`
returns exactly the raw un-normalized basis-function value list; the
identical geometry supplied as floats is instead divided through by each
sequence maximum (here turning the raw `[4.0, ...]` values into
`[1.0, ...]`). -/
theorem c10_integer_coords_skip_normalization :
    (∀ (cosd sind : ℚ → ℚ) (coords : List (List PyNum)) (group : String),
      (∀ uv ∈ coords, ∀ u ∈ uv, u.isInt = true) →
      calc_salcs_func cosd sind coords group "vector" = buildSalcs coords group) ∧
    calc_salcs_func constZeroFun constZeroFun dblFloatVecs "d4h" "vector" =
        .ok dblFloatSalcs ∧
    buildSalcs dblFloatVecs "d4h" = .ok dblFloatRaw ∧
    dblFloatSalcs ≠ dblFloatRaw := by
  refine ⟨?_, ?_, ?_, ?_⟩
  · intro cosd sind coords group hint
    simp only [calc_salcs_func]
    rw [if_neg (by decide)]
    simp only [if_true]
    show (match buildSalcs coords group with
      | Except.error e => Except.error e
      | Except.ok salcs => _normalize_salcs salcs) = buildSalcs coords group
    cases hb : buildSalcs coords group with
    | error e => rfl
    | ok salcs =>
      show _normalize_salcs salcs = .ok salcs
      exact normL_allInt_id salcs salcs (buildSalcs_allInt coords group salcs hint hb)
  · have hb : buildSalcs dblFloatVecs "d4h" = .ok dblFloatRaw := by
      with_unfolding_all decide
    have hn : _normalize_salcs dblFloatRaw = .ok dblFloatSalcs := by
      with_unfolding_all decide
    simp only [calc_salcs_func]
    rw [if_neg (by decide)]
    simp only [if_true]
    simp only [hb, hn]
  · with_unfolding_all decide
  · with_unfolding_all decide

/-- Witness for C10 at the integer square-planar scenario: the result is the
raw (un-normalized) value list. -/
theorem c10_witness :
    calc_salcs_func constZeroFun constZeroFun dblIntVecs "d4h" "vector" =
      buildSalcs dblIntVecs "d4h" :=
  c10_integer_coords_skip_normalization.1 constZeroFun constZeroFun dblIntVecs "d4h"
    (by decide)
